import Mathlib

/-!
# Verification of the mjx_warp dynamics pipeline

Shallow embedding of the warp kernels in `src/mujoco/mjx/_src/` (math.py,
smooth.py, forward.py) and proofs about them.

Modelling conventions:
* Machine floats are embedded as elements of a `LinearOrderedField K`
  (instantiated at `ℚ` for executable/decidable statements and at `ℝ` where
  square roots or trigonometric functions are inherent); all theorems are
  about exact arithmetic.
* Transcendental primitives (`wp.sqrt` inside `wp.length`/`wp.normalize`,
  `wp.sin`, `wp.cos`, `wp.exp`) are passed as explicit function parameters
  `sqf`, `sinf`, `cosf`, `expf`; theorems over `ℝ` instantiate them with
  `Real.sqrt`, `Real.sin`, `Real.cos`, `Real.exp`.
* A per-world device array is embedded as a total function `ℕ → K`
  (device memory); a kernel write is `Function.update`.  Model arrays with a
  definite host-side size are embedded as `List`s read with `getD`.
* One world is modelled; worlds are fully independent in the source (each
  kernel indexes all per-world state by `worldid` only), so every per-world
  claim is settled on the single-world embedding.
-/

namespace MjxWarp

/-- 3-vectors, componentwise, embedding `wp.vec3`. -/
structure Vec3 (K : Type) where
  x : K
  y : K
  z : K
deriving DecidableEq, Repr

/-- Quaternions stored as in the source: component 0 is the scalar part
(the source consistently builds `wp.quat(w, x, y, z)` from MuJoCo's
scalar-first layout and its own `mul_quat` treats index 0 as scalar). -/
structure Quat (K : Type) where
  w : K
  x : K
  y : K
  z : K
deriving DecidableEq, Repr

/-- Row-major 3x3 matrix, embedding `wp.mat33`. -/
structure Mat3 (K : Type) where
  m00 : K
  m01 : K
  m02 : K
  m10 : K
  m11 : K
  m12 : K
  m20 : K
  m21 : K
  m22 : K
deriving DecidableEq, Repr

variable {K : Type} [LinearOrderedField K]

/-- Vector addition. -/
def vadd (u v : Vec3 K) : Vec3 K := ⟨u.x + v.x, u.y + v.y, u.z + v.z⟩

/-- Vector subtraction. -/
def vsub (u v : Vec3 K) : Vec3 K := ⟨u.x - v.x, u.y - v.y, u.z - v.z⟩

/-- Scalar multiple of a vector. -/
def vscale (a : K) (v : Vec3 K) : Vec3 K := ⟨a * v.x, a * v.y, a * v.z⟩

/-- Dot product of 3-vectors (`wp.dot`). -/
def vdot (u v : Vec3 K) : K := u.x * v.x + u.y * v.y + u.z * v.z

/-- Cross product (`wp.cross`). -/
def vcross (u v : Vec3 K) : Vec3 K :=
  ⟨u.y * v.z - u.z * v.y, u.z * v.x - u.x * v.z, u.x * v.y - u.y * v.x⟩

/-- Matrix-vector product (`wp.mat33 * wp.vec3`). -/
def matVec (m : Mat3 K) (v : Vec3 K) : Vec3 K :=
  ⟨m.m00 * v.x + m.m01 * v.y + m.m02 * v.z,
   m.m10 * v.x + m.m11 * v.y + m.m12 * v.z,
   m.m20 * v.x + m.m21 * v.y + m.m22 * v.z⟩

/-- Squared Euclidean norm of a quaternion. -/
def qnormSq (q : Quat K) : K := q.w * q.w + q.x * q.x + q.y * q.y + q.z * q.z

/-- Scalar multiple of a quaternion. -/
def qscale (a : K) (q : Quat K) : Quat K := ⟨a * q.w, a * q.x, a * q.y, a * q.z⟩

/-- math.py `mul_quat`: Hamilton product, scalar-first. -/
def mul_quat (u v : Quat K) : Quat K :=
  ⟨u.w * v.w - u.x * v.x - u.y * v.y - u.z * v.z,
   u.w * v.x + u.x * v.w + u.y * v.z - u.z * v.y,
   u.w * v.y - u.x * v.z + u.y * v.w + u.z * v.x,
   u.w * v.z + u.x * v.y - u.y * v.x + u.z * v.w⟩

/-- math.py `rot_vec_quat`: rotate `vec` by quaternion `quat`
(`r = 2 (u·v) u + (s² - u·u) v + 2 s (u × v)`). -/
def rot_vec_quat (vec : Vec3 K) (quat : Quat K) : Vec3 K :=
  let s := quat.w
  let u : Vec3 K := ⟨quat.x, quat.y, quat.z⟩
  vadd (vadd (vscale (2 * vdot u vec) u) (vscale (s * s - vdot u u) vec))
    (vscale (2 * s) (vcross u vec))

/-- math.py `axis_angle_to_quat`; `sinf`/`cosf` embed `wp.sin`/`wp.cos`. -/
def axis_angle_to_quat (sinf cosf : K → K) (axis : Vec3 K) (angle : K) :
    Quat K :=
  let s := sinf (angle * (1 / 2))
  let c := cosf (angle * (1 / 2))
  ⟨c, axis.x * s, axis.y * s, axis.z * s⟩

/-- math.py `quat_to_mat`. -/
def quat_to_mat (q : Quat K) : Mat3 K :=
  ⟨q.w * q.w + q.x * q.x - q.y * q.y - q.z * q.z,
   2 * (q.x * q.y - q.w * q.z),
   2 * (q.x * q.z + q.w * q.y),
   2 * (q.x * q.y + q.w * q.z),
   q.w * q.w - q.x * q.x + q.y * q.y - q.z * q.z,
   2 * (q.y * q.z - q.w * q.x),
   2 * (q.x * q.z - q.w * q.y),
   2 * (q.y * q.z + q.w * q.x),
   q.w * q.w - q.x * q.x - q.y * q.y + q.z * q.z⟩

/-- `wp.length` of a 3-vector: `sqf` embeds the square root. -/
def vlength (sqf : K → K) (v : Vec3 K) : K := sqf (vdot v v)

/-- `wp.normalize` on 3-vectors.  Warp guards degenerate input (length below
a tiny epsilon yields the zero vector); the guard is idealized to an exact
zero test in this exact-arithmetic embedding. -/
def wpNormalizeVec (sqf : K → K) (v : Vec3 K) : Vec3 K :=
  let l := vlength sqf v
  if l = 0 then ⟨0, 0, 0⟩ else vscale (1 / l) v

/-- `wp.length` of a quaternion. -/
def qlength (sqf : K → K) (q : Quat K) : K := sqf (qnormSq q)

/-- `wp.normalize` on quaternions, with the same idealized degeneracy guard
as `wpNormalizeVec`; the degenerate branch is never reached in any theorem
below. -/
def wpNormalizeQuat (sqf : K → K) (q : Quat K) : Quat K :=
  let l := qlength sqf q
  if l = 0 then ⟨0, 0, 0, 0⟩ else qscale (1 / l) q

/-! ## Forward kinematics (smooth.py, `kinematics._level`) -/

/-- Per-joint static model data used by the kinematics level kernel
(`m.jnt_type`, `m.jnt_qposadr`, `m.jnt_axis`, `m.jnt_pos`).
Joint types: 0 = free, 1 = ball, 2 = slide, 3 = hinge. -/
structure Jnt (K : Type) where
  type : ℕ
  qposadr : ℕ
  axis : Vec3 K
  pos : Vec3 K
deriving DecidableEq, Repr

/-- One iteration of the joint loop in `kinematics._level` (smooth.py lines
44-60): computes the joint's world anchor and axis from the current body
pose, and, when the joint is a hinge (`jnt_type == 3`), applies the
axis-angle rotation followed by the anchor-preserving position correction.
The source has no branch for ball (1) or slide (2) joints: for those the
pose is returned unchanged.  Returns `((xpos', xquat'), (xanchor, xaxis))`. -/
def jointStep (sinf cosf : K → K) (qpos qpos0 : ℕ → K) (jnt : Jnt K)
    (st : Vec3 K × Quat K) : (Vec3 K × Quat K) × (Vec3 K × Vec3 K) :=
  let xpos := st.1
  let xquat := st.2
  let xanchor := vadd (rot_vec_quat jnt.pos xquat) xpos
  let xaxis := rot_vec_quat jnt.axis xquat
  if jnt.type = 3 then
    let qloc := axis_angle_to_quat sinf cosf jnt.axis
      (qpos jnt.qposadr - qpos0 jnt.qposadr)
    let xquat' := mul_quat xquat qloc
    let xpos' := vsub xanchor (rot_vec_quat jnt.pos xquat')
    ((xpos', xquat'), (xanchor, xaxis))
  else
    ((xpos, xquat), (xanchor, xaxis))

/-- The `for _ in range(jntnum)` loop of `kinematics._level`, threading the
body pose through the joints and collecting each joint's stored
(xanchor, xaxis) pair in order. -/
def jointLoop (sinf cosf : K → K) (qpos qpos0 : ℕ → K)
    (st : Vec3 K × Quat K) :
    List (Jnt K) → (Vec3 K × Quat K) × List (Vec3 K × Vec3 K)
  | [] => (st, [])
  | j :: rest =>
    let r := jointStep sinf cosf qpos qpos0 j st
    let rec' := jointLoop sinf cosf qpos qpos0 r.1 rest
    (rec'.1, r.2 :: rec'.2)

/-- Inputs of the `_level` kernel for one body: the parent's pose as already
stored in Data (`d.xpos`, `d.xquat`, `d.xmat`), the body's fixed offset from
its parent (`m.body_pos`, `m.body_quat`) and its joints. -/
structure KinBodyIn (K : Type) where
  pxpos : Vec3 K
  pxquat : Quat K
  pxmat : Mat3 K
  body_pos : Vec3 K
  body_quat : Quat K
  joints : List (Jnt K)
deriving Repr

/-- Outputs the kernel stores for one body: `d.xpos`, `d.xquat` (normalized),
`d.xmat` (built from the un-normalized quaternion, as in the source), and
the per-joint `(d.xanchor, d.xaxis)` pairs. -/
structure KinBodyOut (K : Type) where
  xpos : Vec3 K
  xquat : Quat K
  xmat : Mat3 K
  anchors : List (Vec3 K × Vec3 K)
deriving Repr

/-- The regular (non-free) branch of `kinematics._level`: compose the parent
pose with the body's fixed local offset, then run the joint loop. -/
def kinematicsRegular (sqf sinf cosf : K → K) (qpos qpos0 : ℕ → K)
    (b : KinBodyIn K) : KinBodyOut K :=
  let xpos := vadd (matVec b.pxmat b.body_pos) b.pxpos
  let xquat := mul_quat b.pxquat b.body_quat
  let r := jointLoop sinf cosf qpos qpos0 (xpos, xquat) b.joints
  { xpos := r.1.1
    xquat := wpNormalizeQuat sqf r.1.2
    xmat := quat_to_mat r.1.2
    anchors := r.2 }

/-- The body-update computation of `kinematics._level` (smooth.py lines
20-64): a body with a single free joint takes its pose directly from qpos;
any other body composes the parent pose with the fixed local offset and then
runs the joint loop (`kinematicsRegular`). -/
def kinematicsBody (sqf sinf cosf : K → K) (qpos qpos0 : ℕ → K)
    (b : KinBodyIn K) : KinBodyOut K :=
  match b.joints with
  | [j] =>
    if j.type = 0 then
      let qadr := j.qposadr
      let xpos : Vec3 K := ⟨qpos qadr, qpos (qadr + 1), qpos (qadr + 2)⟩
      let xquat : Quat K :=
        ⟨qpos (qadr + 3), qpos (qadr + 4), qpos (qadr + 5), qpos (qadr + 6)⟩
      { xpos := xpos
        xquat := wpNormalizeQuat sqf xquat
        xmat := quat_to_mat xquat
        anchors := [(xpos, j.axis)] }
    else kinematicsRegular sqf sinf cosf qpos qpos0 b
  | _ => kinematicsRegular sqf sinf cosf qpos qpos0 b

/-! ## Actuator activation dynamics (forward.py, `next_activation`) -/

/-- `wp.select(cond, a, b)`: `a` when the condition is false, `b` when it is
true. -/
def wpSelect {α : Type} (c : Prop) [Decidable c] (a b : α) : α :=
  if c then b else a

/-- forward.py `WarpMjMinVal = wp.constant(1e-15)`. -/
def WarpMjMinVal : K := 1 / 10 ^ 15

/-- The clamped filter time constant of `next_activation`'s FILTEREXACT
branch: `tau = wp.select(dyn_prm < WarpMjMinVal, dyn_prm, WarpMjMinVal)`. -/
def filterTau (dynprm : K) : K :=
  wpSelect (dynprm < WarpMjMinVal) dynprm WarpMjMinVal

/-- Per-actuator static model data used by `next_activation`
(`m.actuator_actlimited`, `m.actuator_actrange`, `m.actuator_actadr`,
`m.actuator_dyntype`, `m.actuator_dynprm`).  `actadr = -1` marks a
stateless actuator.  Dynamics type 3 is FILTEREXACT. -/
structure Actuator (K : Type) where
  actlimited : Bool
  actrange_low : K
  actrange_high : K
  actadr : ℤ
  dyntype : ℕ
  dynprm : K
deriving Repr

/-- forward.py `next_activation` (lines 26-64) for one (world, actuator)
thread; `expf` embeds `wp.exp`.  NOTE: the source computes
`wp.clamp(act, range_low, range_high)` on line 62 but never assigns the
result — the clamp is a no-op and the stored activation is the unclamped
advanced value.  The embedding mirrors that (and therefore never needs the
infinite range bounds of the unlimited branch, which feed only the
discarded clamp). -/
def nextActivation (expf : K → K) (timestep : K) (a : Actuator K)
    (act act_dot : ℕ → K) : ℕ → K :=
  if a.actadr = -1 then act
  else
    let adr := a.actadr.toNat
    let act0 := act adr
    let actdot := act_dot adr
    let act1 :=
      if a.dyntype = 3 then
        let tau := filterTau a.dynprm
        act0 + actdot * tau * (1 - expf (-timestep / tau))
      else
        act0 + actdot * timestep
    Function.update act adr act1

/-! ## Position integration (forward.py, `quat_integrate_wp`,
`integrate_joint_positions`) -/

/-- forward.py `quat_integrate_wp`: integrate a quaternion by an angular
velocity over `dt` (normalize the velocity, build the axis-angle quaternion
for angle `dt * |v|`, compose on the right of `q`, renormalize). -/
def quat_integrate_wp (sqf sinf cosf : K → K) (q : Quat K) (v : Vec3 K)
    (dt : K) : Quat K :=
  let norm_ := vlength sqf v
  let v' := wpNormalizeVec sqf v
  let angle := dt * norm_
  let q_res := axis_angle_to_quat sinf cosf v' angle
  let q_res := mul_quat q q_res
  wpNormalizeQuat sqf q_res

/-- forward.py `integrate_joint_positions` (lines 75-128) for one
(world, joint) thread: free joints (type 0) integrate translation linearly
and orientation by `quat_integrate_wp`; ball joints (type 1) integrate
orientation only; hinge/slide integrate the scalar coordinate linearly.
Each scalar store of the kernel is one `Function.update`. -/
def integrateJointPositions (sqf sinf cosf : K → K) (timestep : K)
    (jnt_type qpos_adr dof_adr : ℕ) (qpos qvel : ℕ → K) : ℕ → K :=
  if jnt_type = 0 then
    let qpos_pos : Vec3 K :=
      ⟨qpos qpos_adr, qpos (qpos_adr + 1), qpos (qpos_adr + 2)⟩
    let qvel_lin : Vec3 K :=
      ⟨qvel dof_adr, qvel (dof_adr + 1), qvel (dof_adr + 2)⟩
    let qpos_new := vadd qpos_pos (vscale timestep qvel_lin)
    let qpos_quat : Quat K :=
      ⟨qpos (qpos_adr + 3), qpos (qpos_adr + 4), qpos (qpos_adr + 5),
        qpos (qpos_adr + 6)⟩
    let qvel_ang : Vec3 K :=
      ⟨qvel (dof_adr + 3), qvel (dof_adr + 4), qvel (dof_adr + 5)⟩
    let qq := quat_integrate_wp sqf sinf cosf qpos_quat qvel_ang timestep
    Function.update (Function.update (Function.update (Function.update
      (Function.update (Function.update (Function.update qpos
        qpos_adr qpos_new.x) (qpos_adr + 1) qpos_new.y)
        (qpos_adr + 2) qpos_new.z) (qpos_adr + 3) qq.w)
        (qpos_adr + 4) qq.x) (qpos_adr + 5) qq.y) (qpos_adr + 6) qq.z
  else if jnt_type = 1 then
    let qpos_quat : Quat K :=
      ⟨qpos qpos_adr, qpos (qpos_adr + 1), qpos (qpos_adr + 2),
        qpos (qpos_adr + 3)⟩
    let qvel_ang : Vec3 K :=
      ⟨qvel dof_adr, qvel (dof_adr + 1), qvel (dof_adr + 2)⟩
    let qq := quat_integrate_wp sqf sinf cosf qpos_quat qvel_ang timestep
    Function.update (Function.update (Function.update (Function.update qpos
      qpos_adr qq.w) (qpos_adr + 1) qq.x) (qpos_adr + 2) qq.y)
      (qpos_adr + 3) qq.z
  else
    Function.update qpos qpos_adr (qpos qpos_adr + timestep * qvel dof_adr)

/-! ## Model and Data for the mass-matrix / integrator stages

The fields mirror `types.Model` / `types.Data` (types.py) plus the fields
the kernels of smooth.py/forward.py read that the older types.py snapshot
in src/ does not yet declare (`dof_damping`, `qLD_updates`, `is_sparse`,
`disable_flags`, `nM`, actuator tables); those are embedded exactly as the
kernels use them.  2-D per-world arrays (`d.qM`, `d.qLD`) are functions
`ℕ → ℕ → K` (row, column); the packed sparse layout lives in row 0, as in
the source's `qM[worldid, 0, madr]` accesses. -/

structure Model (K : Type) where
  nv : ℕ
  nM : ℕ
  na : ℕ
  timestep : K
  disable_flags : ℕ
  is_sparse : Bool
  dof_Madr : List ℕ
  dof_damping : List K
  dof_parentid : List ℤ
  qLD_updates : List (ℕ × ℕ × ℕ)
  actuators : List (Actuator K)
  joints : List (ℕ × ℕ × ℕ)

structure Data (K : Type) where
  time : K
  qpos : ℕ → K
  qvel : ℕ → K
  qacc : ℕ → K
  act : ℕ → K
  act_dot : ℕ → K
  qM : ℕ → ℕ → K
  qLD : ℕ → ℕ → K
  qLDiagInv : ℕ → K
  qfrc_smooth : ℕ → K
  qfrc_constraint : ℕ → K
  qacc_eulerdamp : ℕ → K
  qfrc_eulerdamp : ℕ → K

/-- Write one (row, col) entry of a 2-D device array. -/
def upd2 (A : ℕ → ℕ → K) (i j : ℕ) (v : K) : ℕ → ℕ → K :=
  fun r c => if r = i ∧ c = j then v else A r c

/-- forward.py `euler.add_damping_dense` (lines 165-169).  Despite its name
the source launches this kernel when `m.is_sparse`, over `(nworld, m.nM)`
threads; each thread reads `dof_Madr = m.dof_Madr[tid]` and adds
`timestep * m.dof_damping[dof_Madr]` into the packed entry
`qM[0, dof_Madr]`.  The launch dimension `nM` exceeds the host-side array
sizes (`dof_Madr` has nv+1 entries, `dof_damping` has nv); such reads are
out of range on the device and are embedded as `getD` with default 0.  The
parallel threads are folded in tid order (the adds commute). -/
def addDampingDense (m : Model K) (qM : ℕ → ℕ → K) : ℕ → ℕ → K :=
  (List.range m.nM).foldl
    (fun A tid =>
      let madr := m.dof_Madr.getD tid 0
      upd2 A 0 madr (A 0 madr + m.timestep * m.dof_damping.getD madr 0))
    qM

/-- forward.py `euler.add_damping_sparse` (lines 171-174): launched when the
model is dense, over `(nworld, m.nv)` threads; adds
`timestep * m.dof_damping[tid]` to the dense diagonal entry
`qM[tid, tid]`. -/
def addDampingSparse (m : Model K) (qM : ℕ → ℕ → K) : ℕ → ℕ → K :=
  (List.range m.nv).foldl
    (fun A tid =>
      upd2 A tid tid (A tid tid + m.timestep * m.dof_damping.getD tid 0))
    qM

/-! ## Sparse factorization and solve (smooth.py, `factor_m` / `solve_m`) -/

/-- One elimination update of `_factor_m_sparse.qLD_acc` (smooth.py lines
247-259), for the schedule triple `(i, k, Madr_ki)`: `tmp = M(k,i)/M(k,k)`;
subtract `tmp` times row k's remaining entries from row i; store `tmp` at
`Madr_ki`.  All accesses are to the packed row 0, in place. -/
def qLDUpdate (m : Model K) (qLD : ℕ → ℕ → K) (u : ℕ × ℕ × ℕ) :
    ℕ → ℕ → K :=
  let i := u.1
  let k := u.2.1
  let Madr_ki := u.2.2
  let Madr_i := m.dof_Madr.getD i 0
  let tmp := qLD 0 Madr_ki / qLD 0 (m.dof_Madr.getD k 0)
  let qLD' := (List.range (m.dof_Madr.getD (i + 1) 0 - Madr_i)).foldl
    (fun A j =>
      upd2 A 0 (Madr_i + j) (A 0 (Madr_i + j) - A 0 (Madr_ki + j) * tmp))
    qLD
  upd2 qLD' 0 Madr_ki tmp

/-- smooth.py `_factor_m_sparse` (lines 244-274): copy qM into qLD, run the
elimination schedule, then invert the diagonal entries over nv threads.
`m.qLD_updates` is the flattened schedule in processed order — the source
walks the precomputed levels from last to first, each level's updates
touching disjoint rows; the schedule itself is built outside src/ and is
modelled from the spec's description of a race-free elimination order. -/
def factorMSparse (m : Model K) (qM : ℕ → ℕ → K) (qLDiagInv0 : ℕ → K) :
    (ℕ → ℕ → K) × (ℕ → K) :=
  let qLD := m.qLD_updates.foldl (qLDUpdate m) qM
  (qLD,
    fun i =>
      if i < m.nv then 1 / qLD 0 (m.dof_Madr.getD i 0) else qLDiagInv0 i)

/-- The inner `while j >= 0` loop of the first sweep of
`solve_m.solve_m_sparse` (smooth.py lines 326-333): walking dof `i`'s
ancestor chain, subtracting `L(i,j) * y[i]` from each ancestor `y[j]`.
Fuel-bounded recursion (the chain strictly descends, so `nv` fuel
suffices). -/
def solveSweep1Aux (m : Model K) (qLD : ℕ → ℕ → K) (i : ℕ) :
    ℕ → ℤ → ℕ → (ℕ → K) → ℕ → K
  | 0, _, _, y => y
  | fuel + 1, j, madr, y =>
    if j < 0 then y
    else
      let jn := j.toNat
      let y' := Function.update y jn (y jn - qLD 0 madr * y i)
      solveSweep1Aux m qLD i fuel (m.dof_parentid.getD jn (-1)) (madr + 1) y'

/-- The inner `while j >= 0` loop of the third sweep (smooth.py lines
340-347): subtracting `L(i,j) * y[j]` from `y[i]` along dof `i`'s ancestor
chain. -/
def solveSweep3Aux (m : Model K) (qLD : ℕ → ℕ → K) (i : ℕ) :
    ℕ → ℤ → ℕ → (ℕ → K) → ℕ → K
  | 0, _, _, y => y
  | fuel + 1, j, madr, y =>
    if j < 0 then y
    else
      let jn := j.toNat
      let y' := Function.update y i (y i - qLD 0 madr * y jn)
      solveSweep3Aux m qLD i fuel (m.dof_parentid.getD jn (-1)) (madr + 1) y'

/-- smooth.py `solve_m_sparse` kernel (lines 319-347): three sequential
sweeps in place on `y` — backward substitution over ancestor chains for
`i = nv-1 .. 0`, diagonal scaling by `qLDiagInv`, forward substitution for
`i = 0 .. nv-1`. -/
def solveMSparse (m : Model K) (qLD : ℕ → ℕ → K) (qLDiagInv : ℕ → K)
    (y0 : ℕ → K) : ℕ → K :=
  let y1 := (List.range m.nv).reverse.foldl
    (fun y i =>
      solveSweep1Aux m qLD i m.nv (m.dof_parentid.getD i (-1))
        (m.dof_Madr.getD i 0 + 1) y)
    y0
  let y2 := (List.range m.nv).foldl
    (fun y i => Function.update y i (y i * qLDiagInv i)) y1
  (List.range m.nv).foldl
    (fun y i =>
      solveSweep3Aux m qLD i m.nv (m.dof_parentid.getD i (-1))
        (m.dof_Madr.getD i 0 + 1) y)
    y2

/-- smooth.py `factor_m` (lines 292-299): dispatch on the model-wide
sparse/dense flag.  The dense branch's `wp.tile_cholesky` is an external
library primitive and is passed as the parameter `denseFactor`; the sparse
branch requires the diagonal-inverse buffer.  Returns `(qLD, qLDiagInv)`. -/
def factor_m (m : Model K) (denseFactor : (ℕ → ℕ → K) → ℕ → ℕ → K)
    (qM : ℕ → ℕ → K) (qLDiagInv0 : ℕ → K) : (ℕ → ℕ → K) × (ℕ → K) :=
  if m.is_sparse then factorMSparse m qM qLDiagInv0
  else (denseFactor qM, qLDiagInv0)

/-- smooth.py `solve_m` (lines 301-353): dispatch on the sparse/dense flag.
The sparse path first copies `x` into `y` (`wp.copy(y, x)`) and then runs
the in-place kernel on `y` alone; the dense path tile-loads `x` and
tile-stores into `y`.  `wp.tile_cholesky_solve` is an external library
primitive passed as the parameter `denseSolve`.  `y0` is the output
buffer's prior content, which neither path reads.  Returns the pair
`(x, y)` after the call. -/
def solve_m (m : Model K) (denseSolve : (ℕ → ℕ → K) → (ℕ → K) → ℕ → K)
    (qLD : ℕ → ℕ → K) (qLDiagInv : ℕ → K) (x y0 : ℕ → K) :
    (ℕ → K) × (ℕ → K) :=
  if m.is_sparse then (x, solveMSparse m qLD qLDiagInv x)
  else (x, denseSolve qLD x)

/-- Modelled from the spec: the dense tiled Cholesky factorization plus
`tile_cholesky_solve` of an SPD 3x3 system returns the exact solution of
`M y = x`; realized here in closed form (adjugate over determinant) for the
symmetric matrix with rows `(M00 M10 M20; M10 M11 M21; M20 M21 M22)`. -/
def denseCholeskySolve3 (M00 M10 M11 M20 M21 M22 x0 x1 x2 : K) : Vec3 K :=
  let det := M00 * (M11 * M22 - M21 * M21) - M10 * (M10 * M22 - M21 * M20) +
    M20 * (M10 * M21 - M11 * M20)
  ⟨((M11 * M22 - M21 * M21) * x0 + (M20 * M21 - M10 * M22) * x1 +
      (M10 * M21 - M11 * M20) * x2) / det,
    ((M20 * M21 - M10 * M22) * x0 + (M00 * M22 - M20 * M20) * x1 +
      (M10 * M20 - M00 * M21) * x2) / det,
    ((M10 * M21 - M11 * M20) * x0 + (M10 * M20 - M00 * M21) * x1 +
      (M00 * M11 - M10 * M10) * x2) / det⟩

/-- A 1-D device array holding the entries of a finite list (reads past the
end return 0). -/
def packedVec (l : List K) : ℕ → K := fun i => l.getD i 0

/-- A 2-D device array whose packed row 0 holds the entries of a finite
list, as in the sparse mass-matrix layout `qM[worldid, 0, madr]`. -/
def packedRow0 (l : List K) : ℕ → ℕ → K :=
  fun r c => if r = 0 then l.getD c 0 else 0

/-- A representative 3-DOF serial-chain Model (each dof's parent is the
previous dof): packed mass-matrix rows are [M(0,0)]@0, [M(1,1), M(1,0)]@1,
[M(2,2), M(2,1), M(2,0)]@3, so nM = 6, dof_Madr = [0, 1, 3, 6] (with
sentinel) and dof_parentid = [-1, 0, 1].  The elimination schedule lists
dof 2's two ancestor updates and then dof 1's — the processed order of the
source's last-to-first walk over the precomputed levels (schedule
construction lives outside src/ and is modelled from the spec). -/
def chain3Model (sparse : Bool) : Model ℚ :=
  ⟨3, 6, 0, 0, 0, sparse, [0, 1, 3, 6], [], [-1, 0, 1],
    [(1, 2, 4), (0, 2, 5), (0, 1, 2)], [], []⟩

/-- The sparse path of the factorization-equivalence property on the 3-DOF
chain: `factor_m` (sparse branch) on the packed symmetric matrix
[M00, M11, M10, M22, M21, M20] followed by `solve_m` (sparse branch) on the
right-hand side [x0, x1, x2].  The dense primitives passed as parameters
are unused on this path. -/
def sparseFactorSolve3 (a b c d e f x0 x1 x2 : ℚ) : ℕ → ℚ :=
  let m := chain3Model true
  let fr := factor_m m (fun A => A) (packedRow0 [a, b, c, d, e, f])
    (fun _ => 0)
  (solve_m m (fun _ x => x) fr.1 fr.2 (packedVec [x0, x1, x2])
    (fun _ => 0)).2

/-! ## Euler integrator (forward.py, `_advance` / `euler`) -/

/-- Modelled from the spec and the MuJoCo headers: the disable bit for
implicit Euler damping (`types.MJ_DSBL_EULERDAMP`; the types.py snapshot in
src/ predates it).  Only being a fixed single bit matters to the claims. -/
def MJ_DSBL_EULERDAMP : ℕ := 2 ^ 14

/-- The `next_activation` launch over `(nworld, m.nu)` threads, folded in
tid order over the actuator table. -/
def advanceAct (expf : K → K) (m : Model K) (act act_dot : ℕ → K) : ℕ → K :=
  m.actuators.foldl
    (fun a actr => nextActivation expf m.timestep actr a act_dot) act

/-- forward.py `_advance` (lines 131-158): advance activation (skipped when
there are no stateful actuators), advance velocities over nv threads,
integrate joint positions (with the freshly advanced `d.qvel` when no
explicit `qvel` is supplied — the source passes the same mutated array),
advance time. -/
def advanceState (expf sqf sinf cosf : K → K) (m : Model K) (d : Data K)
    (act_dot qacc : ℕ → K) (qvel_in : Option (ℕ → K)) : Data K :=
  let act' := if 0 < m.na then advanceAct expf m d.act act_dot else d.act
  let qvel' := fun i =>
    if i < m.nv then d.qvel i + qacc i * m.timestep else d.qvel i
  let qv := match qvel_in with
    | some v => v
    | none => qvel'
  let qpos' := m.joints.foldl
    (fun qp j =>
      integrateJointPositions sqf sinf cosf m.timestep j.1 j.2.1 j.2.2 qp qv)
    d.qpos
  { d with
      act := act'
      qvel := qvel'
      qpos := qpos'
      time := d.time + m.timestep }

/-- forward.py `euler` (lines 161-194): copy `qacc` into `qacc_eulerdamp`;
unless the eulerdamp disable flag is set, add implicit damping to the mass
matrix (packed layout when sparse, dense diagonal otherwise), sum smooth and
constraint forces, re-factorize and solve for the damping-corrected
acceleration; finally `_advance`.  The source's internal calls
`smooth.factor_m(m, d)` / `smooth.solve_m(m, d, d.qacc_eulerdamp,
d.qfrc_eulerdamp)` predate smooth.py's current explicit-array signatures;
they are embedded as factoring `d.qM` into `d.qLD`/`d.qLDiagInv` and
solving with right-hand side `d.qfrc_eulerdamp` into `d.qacc_eulerdamp`,
which is what both signatures compute. -/
def euler (expf sqf sinf cosf : K → K)
    (denseFactor : (ℕ → ℕ → K) → ℕ → ℕ → K)
    (denseSolve : (ℕ → ℕ → K) → (ℕ → K) → ℕ → K)
    (m : Model K) (d : Data K) : Data K :=
  let d1 := { d with qacc_eulerdamp := d.qacc }
  let d2 :=
    if m.disable_flags &&& MJ_DSBL_EULERDAMP = 0 then
      let qM' :=
        if m.is_sparse then addDampingDense m d1.qM
        else addDampingSparse m d1.qM
      let qfrc' := fun i =>
        if i < m.nv then d1.qfrc_smooth i + d1.qfrc_constraint i
        else d1.qfrc_eulerdamp i
      let fr := factor_m m denseFactor qM' d1.qLDiagInv
      let sv := solve_m m denseSolve fr.1 fr.2 qfrc' d1.qacc_eulerdamp
      { d1 with
          qM := qM'
          qfrc_eulerdamp := qfrc'
          qLD := fr.1
          qLDiagInv := fr.2
          qacc_eulerdamp := sv.2 }
    else d1
  advanceState expf sqf sinf cosf m d2 d2.act_dot d2.qacc_eulerdamp none

/-! ## Composite rigid body accumulation (smooth.py, `crb`)

`crb` copies `d.cinert` into `d.crb` and then, walking the levels of
`m.body_tree` from deepest to shallowest, each body atomically adds its
current composite inertia into its parent's — except that bodies whose
parent is the world root (body 0) skip the add (`if pid == 0: return`).
Body indices are `Fin (n+1)` with body 0 the root; `level` is the body's
tree depth (the spec's Model invariant: a body's level is strictly greater
than its parent's).  The accumulated quantity (`vec10`) enters only through
commutative-monoid addition, so it is embedded as an arbitrary
`AddCommMonoid`. -/

structure CrbTree (n : ℕ) where
  parent : Fin (n + 1) → Fin (n + 1)
  level : Fin (n + 1) → ℕ

/-- The ancestor chain `[x, parent x, parent (parent x), ..., 0]`, computed
with explicit fuel (the chain strictly descends in level, so any fuel
exceeding `level x` is enough). -/
def chainAux {n : ℕ} (parent : Fin (n + 1) → Fin (n + 1)) :
    ℕ → Fin (n + 1) → List (Fin (n + 1))
  | 0, _ => []
  | fuel + 1, x => if x = 0 then [x] else x :: chainAux parent fuel (parent x)

/-- The ancestor chain of `x` (including `x` itself and the root). -/
def chainN {n : ℕ} (t : CrbTree n) (x : Fin (n + 1)) : List (Fin (n + 1)) :=
  chainAux t.parent (n + 1) x

/-- One thread of the `crb_accumulate` kernel (smooth.py lines 199-206):
body `b` adds its current entry into its parent's, unless the parent is the
world root. -/
def crbStep {n : ℕ} {V : Type} [AddCommMonoid V] (t : CrbTree n)
    (f : Fin (n + 1) → V) (b : Fin (n + 1)) : Fin (n + 1) → V :=
  if t.parent b = 0 then f
  else Function.update f (t.parent b) (f (t.parent b) + f b)

/-- The whole `crb` accumulation: start from `cinert` (the `wp.copy`) and
process the bodies in `order` — the concatenation of the `body_tree` levels
from deepest to shallowest, the per-level parallel threads sequentialized
in dispatch order (the atomic adds commute). -/
def crbRun {n : ℕ} {V : Type} [AddCommMonoid V] (t : CrbTree n)
    (cinert : Fin (n + 1) → V) (order : List (Fin (n + 1))) :
    Fin (n + 1) → V :=
  order.foldl (crbStep t) cinert

/-- The bodies whose cinert has fully propagated into `y` while the bodies
in `T` are still unprocessed: `x` contributes to `y` when `y` is an
ancestor of `x` and every strictly intermediate body on the chain from `x`
up to (but excluding) `y` — including `x` itself — has been processed. -/
def contribSet {n : ℕ} (t : CrbTree n) (T : List (Fin (n + 1)))
    (y : Fin (n + 1)) : Finset (Fin (n + 1)) :=
  Finset.univ.filter (fun x => y ∈ chainN t x ∧
    ∀ z : Fin (n + 1), z ∈ chainN t x → y ∈ chainN t z → z ≠ y → z ∉ T)

/-- Sum of `cinert` over the whole subtree rooted at `b`. -/
def subtreeSum {n : ℕ} {V : Type} [AddCommMonoid V] (t : CrbTree n)
    (cinert : Fin (n + 1) → V) (b : Fin (n + 1)) : V :=
  ∑ x in Finset.univ.filter (fun x => b ∈ chainN t x), cinert x

attribute [ext] Vec3 Quat Mat3

/-! ## Theorems -/

/-- The squared quaternion norm is multiplicative (Lagrange identity). -/
theorem qnormSq_mul_quat (u v : Quat K) :
    qnormSq (mul_quat u v) = qnormSq u * qnormSq v := by
  simp only [mul_quat, qnormSq]
  ring

/-- Squared norm of a scalar multiple of a quaternion. -/
theorem qnormSq_qscale (a : K) (q : Quat K) :
    qnormSq (qscale a q) = a ^ 2 * qnormSq q := by
  simp only [qscale, qnormSq]
  ring

/-- Squared norm of the axis-angle quaternion, for any sine/cosine. -/
theorem qnormSq_axis_angle (sinf cosf : K → K) (axis : Vec3 K) (angle : K) :
    qnormSq (axis_angle_to_quat sinf cosf axis angle) =
      cosf (angle * (1 / 2)) ^ 2 +
        sinf (angle * (1 / 2)) ^ 2 * vdot axis axis := by
  simp only [axis_angle_to_quat, qnormSq, vdot]
  ring

/-- The dot product of a scaled vector with itself. -/
theorem vdot_vscale_self (a : K) (u : Vec3 K) :
    vdot (vscale a u) (vscale a u) = a * a * vdot u u := by
  simp only [vscale, vdot]
  ring

/-- The squared quaternion norm is nonnegative. -/
theorem qnormSq_nonneg (q : Quat ℝ) : 0 ≤ qnormSq q := by
  have hw := mul_self_nonneg q.w
  have hx := mul_self_nonneg q.x
  have hy := mul_self_nonneg q.y
  have hz := mul_self_nonneg q.z
  unfold qnormSq
  linarith

/-- The dot product of a real vector with itself is nonnegative. -/
theorem vdot_self_nonneg (v : Vec3 ℝ) : 0 ≤ vdot v v := by
  have hx := mul_self_nonneg v.x
  have hy := mul_self_nonneg v.y
  have hz := mul_self_nonneg v.z
  unfold vdot
  linarith

/-- Over ℝ, warp's guarded quaternion renormalization yields an exactly
unit-norm quaternion whenever the input has nonzero norm. -/
theorem qnormSq_wpNormalizeQuat (q : Quat ℝ) (h : qnormSq q ≠ 0) :
    qnormSq (wpNormalizeQuat Real.sqrt q) = 1 := by
  have h0 : 0 ≤ qnormSq q := qnormSq_nonneg q
  have hs : Real.sqrt (qnormSq q) ≠ 0 := by
    rw [Real.sqrt_ne_zero']
    exact lt_of_le_of_ne h0 (Ne.symm h)
  simp only [wpNormalizeQuat, qlength]
  rw [if_neg hs, qnormSq_qscale, div_pow, one_pow, Real.sq_sqrt h0]
  field_simp

/-- Over ℝ, `quat_integrate_wp` returns an exactly unit-norm quaternion for
every unit-norm input quaternion and every angular velocity, including
zero. -/
theorem quat_integrate_wp_unit (q : Quat ℝ) (v : Vec3 ℝ) (dt : ℝ)
    (hq : qnormSq q = 1) :
    qnormSq (quat_integrate_wp Real.sqrt Real.sin Real.cos q v dt) = 1 := by
  have hv0 : 0 ≤ vdot v v := vdot_self_nonneg v
  simp only [quat_integrate_wp, vlength, wpNormalizeVec]
  apply qnormSq_wpNormalizeQuat
  rw [qnormSq_mul_quat, hq, one_mul, qnormSq_axis_angle]
  by_cases hl : Real.sqrt (vdot v v) = 0
  · rw [if_pos hl, hl, mul_zero]
    norm_num [vdot, Real.cos_zero]
  · have hvpos : (0 : ℝ) < vdot v v := by
      rcases lt_or_eq_of_le hv0 with h | h
      · exact h
      · exact absurd (by rw [← h, Real.sqrt_zero]) hl
    rw [if_neg hl, vdot_vscale_self]
    have hdd : Real.sqrt (vdot v v) * Real.sqrt (vdot v v) = vdot v v :=
      Real.mul_self_sqrt hv0
    have hax : 1 / Real.sqrt (vdot v v) * (1 / Real.sqrt (vdot v v)) *
        vdot v v = 1 := by
      have : 1 / Real.sqrt (vdot v v) * (1 / Real.sqrt (vdot v v)) *
          vdot v v =
          vdot v v / (Real.sqrt (vdot v v) * Real.sqrt (vdot v v)) := by
        ring
      rw [this, hdd, div_self (ne_of_gt hvpos)]
    rw [hax, mul_one, Real.cos_sq_add_sin_sq]
    norm_num

/-- C6: for a free (type 0) or ball (type 1) joint, one step of
`integrate_joint_positions` stores an exactly unit-norm quaternion in the
joint's qpos quaternion segment, provided the stored input quaternion has
unit norm — for every angular velocity (including zero) and timestep. -/
theorem integrate_joint_quat_unit_norm (qpos qvel : ℕ → ℝ) (dt : ℝ)
    (qa da : ℕ) :
    (qnormSq ⟨qpos (qa + 3), qpos (qa + 4), qpos (qa + 5), qpos (qa + 6)⟩
        = 1 →
      qnormSq
        ⟨integrateJointPositions Real.sqrt Real.sin Real.cos dt 0 qa da
            qpos qvel (qa + 3),
          integrateJointPositions Real.sqrt Real.sin Real.cos dt 0 qa da
            qpos qvel (qa + 4),
          integrateJointPositions Real.sqrt Real.sin Real.cos dt 0 qa da
            qpos qvel (qa + 5),
          integrateJointPositions Real.sqrt Real.sin Real.cos dt 0 qa da
            qpos qvel (qa + 6)⟩ = 1) ∧
    (qnormSq ⟨qpos qa, qpos (qa + 1), qpos (qa + 2), qpos (qa + 3)⟩ = 1 →
      qnormSq
        ⟨integrateJointPositions Real.sqrt Real.sin Real.cos dt 1 qa da
            qpos qvel qa,
          integrateJointPositions Real.sqrt Real.sin Real.cos dt 1 qa da
            qpos qvel (qa + 1),
          integrateJointPositions Real.sqrt Real.sin Real.cos dt 1 qa da
            qpos qvel (qa + 2),
          integrateJointPositions Real.sqrt Real.sin Real.cos dt 1 qa da
            qpos qvel (qa + 3)⟩ = 1) := by
  constructor
  · intro hq
    have e3 : integrateJointPositions Real.sqrt Real.sin Real.cos dt 0 qa da
        qpos qvel (qa + 3) = (quat_integrate_wp Real.sqrt Real.sin Real.cos
          ⟨qpos (qa + 3), qpos (qa + 4), qpos (qa + 5), qpos (qa + 6)⟩
          ⟨qvel (da + 3), qvel (da + 4), qvel (da + 5)⟩ dt).w := by
      unfold integrateJointPositions
      rw [if_pos rfl, Function.update_noteq (by omega),
        Function.update_noteq (by omega), Function.update_noteq (by omega),
        Function.update_same]
    have e4 : integrateJointPositions Real.sqrt Real.sin Real.cos dt 0 qa da
        qpos qvel (qa + 4) = (quat_integrate_wp Real.sqrt Real.sin Real.cos
          ⟨qpos (qa + 3), qpos (qa + 4), qpos (qa + 5), qpos (qa + 6)⟩
          ⟨qvel (da + 3), qvel (da + 4), qvel (da + 5)⟩ dt).x := by
      unfold integrateJointPositions
      rw [if_pos rfl, Function.update_noteq (by omega),
        Function.update_noteq (by omega), Function.update_same]
    have e5 : integrateJointPositions Real.sqrt Real.sin Real.cos dt 0 qa da
        qpos qvel (qa + 5) = (quat_integrate_wp Real.sqrt Real.sin Real.cos
          ⟨qpos (qa + 3), qpos (qa + 4), qpos (qa + 5), qpos (qa + 6)⟩
          ⟨qvel (da + 3), qvel (da + 4), qvel (da + 5)⟩ dt).y := by
      unfold integrateJointPositions
      rw [if_pos rfl, Function.update_noteq (by omega), Function.update_same]
    have e6 : integrateJointPositions Real.sqrt Real.sin Real.cos dt 0 qa da
        qpos qvel (qa + 6) = (quat_integrate_wp Real.sqrt Real.sin Real.cos
          ⟨qpos (qa + 3), qpos (qa + 4), qpos (qa + 5), qpos (qa + 6)⟩
          ⟨qvel (da + 3), qvel (da + 4), qvel (da + 5)⟩ dt).z := by
      unfold integrateJointPositions
      rw [if_pos rfl, Function.update_same]
    rw [e3, e4, e5, e6]
    exact quat_integrate_wp_unit _ _ _ hq
  · intro hq
    have e0 : integrateJointPositions Real.sqrt Real.sin Real.cos dt 1 qa da
        qpos qvel qa = (quat_integrate_wp Real.sqrt Real.sin Real.cos
          ⟨qpos qa, qpos (qa + 1), qpos (qa + 2), qpos (qa + 3)⟩
          ⟨qvel da, qvel (da + 1), qvel (da + 2)⟩ dt).w := by
      unfold integrateJointPositions
      rw [if_neg (by omega), if_pos rfl, Function.update_noteq (by omega),
        Function.update_noteq (by omega), Function.update_noteq (by omega),
        Function.update_same]
    have e1 : integrateJointPositions Real.sqrt Real.sin Real.cos dt 1 qa da
        qpos qvel (qa + 1) = (quat_integrate_wp Real.sqrt Real.sin Real.cos
          ⟨qpos qa, qpos (qa + 1), qpos (qa + 2), qpos (qa + 3)⟩
          ⟨qvel da, qvel (da + 1), qvel (da + 2)⟩ dt).x := by
      unfold integrateJointPositions
      rw [if_neg (by omega), if_pos rfl, Function.update_noteq (by omega),
        Function.update_noteq (by omega), Function.update_same]
    have e2 : integrateJointPositions Real.sqrt Real.sin Real.cos dt 1 qa da
        qpos qvel (qa + 2) = (quat_integrate_wp Real.sqrt Real.sin Real.cos
          ⟨qpos qa, qpos (qa + 1), qpos (qa + 2), qpos (qa + 3)⟩
          ⟨qvel da, qvel (da + 1), qvel (da + 2)⟩ dt).y := by
      unfold integrateJointPositions
      rw [if_neg (by omega), if_pos rfl, Function.update_noteq (by omega),
        Function.update_same]
    have e3 : integrateJointPositions Real.sqrt Real.sin Real.cos dt 1 qa da
        qpos qvel (qa + 3) = (quat_integrate_wp Real.sqrt Real.sin Real.cos
          ⟨qpos qa, qpos (qa + 1), qpos (qa + 2), qpos (qa + 3)⟩
          ⟨qvel da, qvel (da + 1), qvel (da + 2)⟩ dt).z := by
      unfold integrateJointPositions
      rw [if_neg (by omega), if_pos rfl, Function.update_same]
    rw [e0, e1, e2, e3]
    exact quat_integrate_wp_unit _ _ _ hq

/-- Witness for C6: the ball-joint case at the identity quaternion and zero
angular velocity. -/
theorem integrate_joint_quat_unit_norm_witness :
    qnormSq
      ⟨(fun i => if i = 0 then (1 : ℝ) else 0) 0,
        (fun i => if i = 0 then (1 : ℝ) else 0) 1,
        (fun i => if i = 0 then (1 : ℝ) else 0) 2,
        (fun i => if i = 0 then (1 : ℝ) else 0) 3⟩ = 1 ∧
    qnormSq
      ⟨integrateJointPositions Real.sqrt Real.sin Real.cos 1 1 0 0
          (fun i => if i = 0 then (1 : ℝ) else 0) (fun _ => 0) 0,
        integrateJointPositions Real.sqrt Real.sin Real.cos 1 1 0 0
          (fun i => if i = 0 then (1 : ℝ) else 0) (fun _ => 0) (0 + 1),
        integrateJointPositions Real.sqrt Real.sin Real.cos 1 1 0 0
          (fun i => if i = 0 then (1 : ℝ) else 0) (fun _ => 0) (0 + 2),
        integrateJointPositions Real.sqrt Real.sin Real.cos 1 1 0 0
          (fun i => if i = 0 then (1 : ℝ) else 0) (fun _ => 0) (0 + 3)⟩
      = 1 := by
  constructor
  · norm_num [qnormSq]
  · exact (integrate_joint_quat_unit_norm
      (fun i => if i = 0 then (1 : ℝ) else 0) (fun _ => 0) 1 0 0).2
      (by norm_num [qnormSq])

/-- C9: in `next_activation`'s filter-exact branch the stored value is the
exact exponential update `act + act_dot * tau * (1 - exp(-timestep/tau))`,
and the time constant `tau` used as divisor is at least `WarpMjMinVal =
1e-15` (in particular nonzero) for every configured dynamics parameter. -/
theorem filterexact_divisor_clamped (expf : ℚ → ℚ) (dt dynprm lo hi : ℚ)
    (lim : Bool) (adr : ℕ) (act act_dot : ℕ → ℚ) :
    WarpMjMinVal ≤ filterTau dynprm ∧
    nextActivation expf dt ⟨lim, lo, hi, (adr : ℤ), 3, dynprm⟩ act act_dot
        adr =
      act adr +
        act_dot adr * filterTau dynprm *
          (1 - expf (-dt / filterTau dynprm)) := by
  constructor
  · unfold filterTau wpSelect
    split <;> simp_all [le_of_lt]
  · have h : ¬((adr : ℤ) = -1) := by omega
    unfold nextActivation
    dsimp only
    rw [if_neg h]
    simp [Int.toNat_natCast]

/-- C3 (code evaluated at the failing input): a limited stateful actuator
with range [0, 1], zero activation, activation derivative 10 and timestep 1
stores the advanced value 10, which lies outside the configured range — the
source's `wp.clamp` result is discarded, so out-of-range activations are
stored unclamped. -/
theorem next_activation_clamp_discarded :
    nextActivation (K := ℚ) (fun _ => 0) 1 ⟨true, 0, 1, 0, 0, 0⟩
        (fun _ => 0) (fun _ => 10) 0 = 10 ∧ ¬((10 : ℚ) ≤ 1) := by
  constructor
  · norm_num [nextActivation, Function.update]
  · norm_num

/-- C5: when the eulerdamp disable flag is set, one euler step advances
every DOF's velocity exactly as `qvel + qacc * timestep`, the supplied
acceleration being untouched by any damping correction — for every model,
data and any dense factor/solve primitives. -/
theorem euler_damping_disabled_velocity (expf sqf sinf cosf : ℚ → ℚ)
    (denseFactor : (ℕ → ℕ → ℚ) → ℕ → ℕ → ℚ)
    (denseSolve : (ℕ → ℕ → ℚ) → (ℕ → ℚ) → ℕ → ℚ)
    (m : Model ℚ) (d : Data ℚ)
    (hflag : m.disable_flags &&& MJ_DSBL_EULERDAMP ≠ 0) :
    ∀ i < m.nv,
      (euler expf sqf sinf cosf denseFactor denseSolve m d).qvel i =
        d.qvel i + d.qacc i * m.timestep := by
  intro i hi
  simp [euler, advanceState, hflag, hi]

/-- Witness for C5: a one-DOF world with qvel = qacc = 1 and timestep 1/100
yields qvel = 1 + 1/100 after the step, as in the spec's example. -/
theorem euler_damping_disabled_velocity_witness :
    ((2 ^ 14 : ℕ) &&& MJ_DSBL_EULERDAMP ≠ 0) ∧
    (euler (K := ℚ) (fun _ => 0) (fun _ => 0) (fun _ => 0) (fun _ => 0)
      (fun A => A) (fun _ x => x)
      ⟨1, 1, 0, 1 / 100, 2 ^ 14, true, [0, 1], [0], [-1], [], [], []⟩
      ⟨0, fun _ => 0, fun _ => 1, fun _ => 1, fun _ => 0, fun _ => 0,
        fun _ _ => 0, fun _ _ => 0, fun _ => 0, fun _ => 0, fun _ => 0,
        fun _ => 0, fun _ => 0⟩).qvel 0 = 1 + 1 / 100 := by
  constructor
  · decide
  · have h := euler_damping_disabled_velocity
      (fun _ => 0) (fun _ => 0) (fun _ => 0) (fun _ => 0)
      (fun A => A) (fun _ x => x)
      ⟨1, 1, 0, 1 / 100, 2 ^ 14, true, [0, 1], [0], [-1], [], [], []⟩
      ⟨0, fun _ => 0, fun _ => 1, fun _ => 1, fun _ => 0, fun _ => 0,
        fun _ _ => 0, fun _ _ => 0, fun _ => 0, fun _ => 0, fun _ => 0,
        fun _ => 0, fun _ => 0⟩
      (by decide) 0 (by norm_num)
    simpa using h

/-- C2 (code evaluated at the failing input): for the sparse representation,
`euler`'s damping kernel (`add_damping_dense`, launched when `is_sparse`)
adds `timestep * dof_damping[dof_Madr[tid]]` instead of
`timestep * dof_damping[tid]` at packed address `dof_Madr[tid]`, over nM
(not nv) threads.  For a 4-DOF model with ancestor structure
dof_parentid = [-1, 0, -1, 2] (dof_Madr = [0,1,3,4,6], nM = 6), damping
[1,1,1,5] and timestep 1, the packed diagonal of DOF 2 (address 3) receives
1 * damping[3] = 5, whereas the claim requires 1 * damping[2] = 1. -/
theorem euler_sparse_damping_wrong_coefficient :
    addDampingDense
      (⟨4, 6, 0, 1, 0, true, [0, 1, 3, 4, 6], [1, 1, 1, 5], [-1, 0, -1, 2],
        [], [], []⟩ : Model ℚ)
      (fun _ _ => 0) 0 3 = 5 ∧
    (1 : ℚ) * ([1, 1, 1, 5] : List ℚ).getD 2 0 = 1 ∧ (5 : ℚ) ≠ 1 := by
  refine ⟨?_, by norm_num, by norm_num⟩
  norm_num [addDampingDense, upd2, List.range_succ, List.getD_cons_zero,
    List.getD_cons_succ]

/-- The sparse/dense flag of the 3-chain model. -/
theorem chain3Model_sparse (s : Bool) : (chain3Model s).is_sparse = s := rfl

/-- `packedVec` reads, head. -/
theorem packedVec_at0 (x : ℚ) (l : List ℚ) : packedVec (x :: l) 0 = x := rfl

/-- `packedVec` reads, index 1. -/
theorem packedVec_at1 (x y : ℚ) (l : List ℚ) :
    packedVec (x :: y :: l) 1 = y := rfl

/-- `packedVec` reads, index 2. -/
theorem packedVec_at2 (x y z : ℚ) (l : List ℚ) :
    packedVec (x :: y :: z :: l) 2 = z := rfl

/-- `packedRow0` read at packed address 2. -/
theorem packedRow0_at2 (u v w p q r : ℚ) :
    packedRow0 [u, v, w, p, q, r] 0 2 = w := rfl

/-- `packedRow0` read at packed address 4. -/
theorem packedRow0_at4 (u v w p q r : ℚ) :
    packedRow0 [u, v, w, p, q, r] 0 4 = q := rfl

/-- `packedRow0` read at packed address 5. -/
theorem packedRow0_at5 (u v w p q r : ℚ) :
    packedRow0 [u, v, w, p, q, r] 0 5 = r := rfl

/-- Closed form of the three sparse solve sweeps on the 3-DOF chain, for
arbitrary factor and diagonal-inverse arrays. -/
theorem solveMSparse_chain3_eval (qLD : ℕ → ℕ → ℚ) (qDi : ℕ → ℚ)
    (x : ℕ → ℚ) :
    solveMSparse (chain3Model true) qLD qDi x 0 =
      (x 0 - qLD 0 5 * x 2 - qLD 0 2 * (x 1 - qLD 0 4 * x 2)) * qDi 0 ∧
    solveMSparse (chain3Model true) qLD qDi x 1 =
      (x 1 - qLD 0 4 * x 2) * qDi 1 - qLD 0 2 *
        ((x 0 - qLD 0 5 * x 2 - qLD 0 2 * (x 1 - qLD 0 4 * x 2)) * qDi 0) ∧
    solveMSparse (chain3Model true) qLD qDi x 2 =
      x 2 * qDi 2 - qLD 0 4 * ((x 1 - qLD 0 4 * x 2) * qDi 1 - qLD 0 2 *
        ((x 0 - qLD 0 5 * x 2 - qLD 0 2 * (x 1 - qLD 0 4 * x 2)) * qDi 0)) -
        qLD 0 5 *
          ((x 0 - qLD 0 5 * x 2 - qLD 0 2 * (x 1 - qLD 0 4 * x 2)) * qDi 0)
    := by
  refine ⟨?_, ?_, ?_⟩ <;>
    norm_num [solveMSparse, chain3Model, solveSweep1Aux, solveSweep3Aux,
      Function.update, List.range_succ]

/-- The in-place elimination on the 3-chain: value stored at packed address
2 (the factor L(1,0)). -/
theorem chain3_factor_addr2 (a b c d e f : ℚ) :
    (factorMSparse (chain3Model true) (packedRow0 [a, b, c, d, e, f])
        (fun _ => 0)).1 0 2 =
      (c - f * (e / d)) / (b - e * (e / d)) := by
  norm_num [factorMSparse, chain3Model, qLDUpdate, upd2, packedRow0,
    List.range_succ]

/-- Value stored at packed address 4 (the factor L(2,1)). -/
theorem chain3_factor_addr4 (a b c d e f : ℚ) :
    (factorMSparse (chain3Model true) (packedRow0 [a, b, c, d, e, f])
        (fun _ => 0)).1 0 4 = e / d := by
  norm_num [factorMSparse, chain3Model, qLDUpdate, upd2, packedRow0,
    List.range_succ]

/-- Value stored at packed address 5 (the factor L(2,0)). -/
theorem chain3_factor_addr5 (a b c d e f : ℚ) :
    (factorMSparse (chain3Model true) (packedRow0 [a, b, c, d, e, f])
        (fun _ => 0)).1 0 5 = f / d := by
  norm_num [factorMSparse, chain3Model, qLDUpdate, upd2, packedRow0,
    List.range_succ]

/-- Inverted pivot of dof 0 after elimination. -/
theorem chain3_factor_diaginv0 (a b c d e f : ℚ) :
    (factorMSparse (chain3Model true) (packedRow0 [a, b, c, d, e, f])
        (fun _ => 0)).2 0 =
      1 / (a - f * (f / d) -
        (c - f * (e / d)) * ((c - f * (e / d)) / (b - e * (e / d)))) := by
  norm_num [factorMSparse, chain3Model, qLDUpdate, upd2, packedRow0,
    List.range_succ]

/-- Inverted pivot of dof 1 after elimination. -/
theorem chain3_factor_diaginv1 (a b c d e f : ℚ) :
    (factorMSparse (chain3Model true) (packedRow0 [a, b, c, d, e, f])
        (fun _ => 0)).2 1 = 1 / (b - e * (e / d)) := by
  norm_num [factorMSparse, chain3Model, qLDUpdate, upd2, packedRow0,
    List.range_succ]

/-- Inverted pivot of dof 2 after elimination. -/
theorem chain3_factor_diaginv2 (a b c d e f : ℚ) :
    (factorMSparse (chain3Model true) (packedRow0 [a, b, c, d, e, f])
        (fun _ => 0)).2 2 = 1 / d := by
  norm_num [factorMSparse, chain3Model, qLDUpdate, upd2, packedRow0,
    List.range_succ]

/-- The raw sweep outputs of the sparse path equal the closed-form (Cramer)
solution of the symmetric system, given nonzero pivots/determinant. -/
theorem chain3_raw_to_cramer (a b c d e f x0 x1 x2 : ℚ) (hd : d ≠ 0)
    (hP1 : b * d - e * e ≠ 0)
    (hdet : a * (b * d - e * e) - c * (c * d - e * f) +
      f * (c * e - b * f) ≠ 0)
    (Y0 Y1 Y2 : ℚ)
    (h0 : Y0 = (x0 - f / d * x2 -
      (c - f * (e / d)) / (b - e * (e / d)) * (x1 - e / d * x2)) *
      (1 / (a - f * (f / d) -
        (c - f * (e / d)) * ((c - f * (e / d)) / (b - e * (e / d))))))
    (h1 : Y1 = (x1 - e / d * x2) * (1 / (b - e * (e / d))) -
      (c - f * (e / d)) / (b - e * (e / d)) * Y0)
    (h2 : Y2 = x2 * (1 / d) - e / d * Y1 - f / d * Y0) :
    Y0 = ((b * d - e * e) * x0 + (f * e - c * d) * x1 +
        (c * e - b * f) * x2) /
      (a * (b * d - e * e) - c * (c * d - e * f) + f * (c * e - b * f)) ∧
    Y1 = ((f * e - c * d) * x0 + (a * d - f * f) * x1 +
        (c * f - a * e) * x2) /
      (a * (b * d - e * e) - c * (c * d - e * f) + f * (c * e - b * f)) ∧
    Y2 = ((c * e - b * f) * x0 + (c * f - a * e) * x1 +
        (a * b - c * c) * x2) /
      (a * (b * d - e * e) - c * (c * d - e * f) + f * (c * e - b * f)) := by
  have r1 : b - e * (e / d) = (b * d - e * e) / d := by field_simp
  have hD1 : b - e * (e / d) ≠ 0 := by rw [r1]; exact div_ne_zero hP1 hd
  have r2 : c - f * (e / d) = (c * d - f * e) / d := by field_simp
  have r3 : a - f * (f / d) -
      (c - f * (e / d)) * ((c - f * (e / d)) / (b - e * (e / d))) =
      (a * (b * d - e * e) - c * (c * d - e * f) + f * (c * e - b * f)) /
        (b * d - e * e) := by
    rw [r2, r1]
    field_simp
    ring
  have hy0 : Y0 = ((b * d - e * e) * x0 + (f * e - c * d) * x1 +
      (c * e - b * f) * x2) /
      (a * (b * d - e * e) - c * (c * d - e * f) + f * (c * e - b * f)) := by
    rw [h0, r3, r2, r1]
    field_simp
    ring
  have hy1 : Y1 = ((f * e - c * d) * x0 + (a * d - f * f) * x1 +
      (c * f - a * e) * x2) /
      (a * (b * d - e * e) - c * (c * d - e * f) + f * (c * e - b * f)) := by
    rw [h1, hy0, r2, r1]
    field_simp
    ring
  have hy2 : Y2 = ((c * e - b * f) * x0 + (c * f - a * e) * x1 +
      (a * b - c * c) * x2) /
      (a * (b * d - e * e) - c * (c * d - e * f) + f * (c * e - b * f)) := by
    rw [h2, hy1, hy0]
    field_simp
    ring
  exact ⟨hy0, hy1, hy2⟩

/-- C4: on the 3-DOF chain, for every symmetric mass matrix (packed entries
M00=a, M11=b, M10=c, M22=d, M21=e, M20=f) and right-hand side, the sparse
path (in-place LDL^T factorization + three-sweep substitution) and the
dense path (tiled Cholesky factor+solve, modelled as the exact solver
`denseCholeskySolve3`) produce exactly the same solution, provided the
pivots and determinant are nonzero (which holds for every SPD matrix). -/
theorem sparse_dense_solve_equiv (a b c d e f x0 x1 x2 : ℚ) (hd : d ≠ 0)
    (hP1 : b * d - e * e ≠ 0)
    (hdet : a * (b * d - e * e) - c * (c * d - e * f) +
      f * (c * e - b * f) ≠ 0) :
    sparseFactorSolve3 a b c d e f x0 x1 x2 0 =
      (denseCholeskySolve3 a c b f e d x0 x1 x2).x ∧
    sparseFactorSolve3 a b c d e f x0 x1 x2 1 =
      (denseCholeskySolve3 a c b f e d x0 x1 x2).y ∧
    sparseFactorSolve3 a b c d e f x0 x1 x2 2 =
      (denseCholeskySolve3 a c b f e d x0 x1 x2).z := by
  have H := solveMSparse_chain3_eval
    (factorMSparse (chain3Model true) (packedRow0 [a, b, c, d, e, f])
      (fun _ => 0)).1
    (factorMSparse (chain3Model true) (packedRow0 [a, b, c, d, e, f])
      (fun _ => 0)).2
    (packedVec [x0, x1, x2])
  have h0 := H.1
  have h1 := H.2.1
  have h2 := H.2.2
  rw [packedVec_at0, packedVec_at1, packedVec_at2, chain3_factor_addr2,
    chain3_factor_addr4, chain3_factor_addr5, chain3_factor_diaginv0] at h0
  rw [packedVec_at0, packedVec_at1, packedVec_at2, chain3_factor_addr2,
    chain3_factor_addr4, chain3_factor_addr5, chain3_factor_diaginv0,
    chain3_factor_diaginv1] at h1
  rw [packedVec_at0, packedVec_at1, packedVec_at2, chain3_factor_addr2,
    chain3_factor_addr4, chain3_factor_addr5, chain3_factor_diaginv0,
    chain3_factor_diaginv1, chain3_factor_diaginv2] at h2
  rw [← h0] at h1
  rw [← h0, ← h1] at h2
  have HC := chain3_raw_to_cramer a b c d e f x0 x1 x2 hd hP1 hdet _ _ _
    h0 h1 h2
  simp only [sparseFactorSolve3, factor_m, solve_m, chain3Model_sparse,
    if_true, denseCholeskySolve3]
  exact HC

/-- Witness for C4: the SPD matrix with diagonal (2,2,2) and off-diagonal
entries 1, right-hand side (1,0,0). -/
theorem sparse_dense_solve_equiv_witness :
    ((2 : ℚ) ≠ 0) ∧ ((2 : ℚ) * 2 - 1 * 1 ≠ 0) ∧
    ((2 : ℚ) * (2 * 2 - 1 * 1) - 1 * (1 * 2 - 1 * 1) +
      1 * (1 * 1 - 2 * 1) ≠ 0) ∧
    sparseFactorSolve3 2 2 1 2 1 1 1 0 0 0 =
      (denseCholeskySolve3 2 1 2 1 1 2 1 0 0).x := by
  refine ⟨by norm_num, by norm_num, by norm_num, ?_⟩
  exact (sparse_dense_solve_equiv 2 2 1 2 1 1 1 0 0 (by norm_num)
    (by norm_num) (by norm_num)).1

/-- The three-sweep output solves the factored system `Lᵀ D L y = x` (L unit
lower-triangular with the stored multipliers, D the stored pivots), given
the sweep closed forms and nonzero pivots. -/
theorem chain3_LTDL_solves (l10 l21 l20 d0 d1 d2 x0 x1 x2 : ℚ)
    (hd0 : d0 ≠ 0) (hd1 : d1 ≠ 0) (hd2 : d2 ≠ 0) (y0 y1 y2 : ℚ)
    (h0 : y0 = (x0 - l20 * x2 - l10 * (x1 - l21 * x2)) * (1 / d0))
    (h1 : y1 = (x1 - l21 * x2) * (1 / d1) - l10 * y0)
    (h2 : y2 = x2 * (1 / d2) - l21 * y1 - l20 * y0) :
    (d0 + l10 * l10 * d1 + l20 * l20 * d2) * y0 +
        (l10 * d1 + l20 * l21 * d2) * y1 + l20 * d2 * y2 = x0 ∧
    (l10 * d1 + l20 * l21 * d2) * y0 + (d1 + l21 * l21 * d2) * y1 +
        l21 * d2 * y2 = x1 ∧
    l20 * d2 * y0 + l21 * d2 * y1 + d2 * y2 = x2 := by
  have e0 : d0 * y0 = x0 - l20 * x2 - l10 * (x1 - l21 * x2) := by
    rw [h0]; field_simp
  have e1 : d1 * y1 = (x1 - l21 * x2) - d1 * l10 * y0 := by
    rw [h1]; field_simp; ring
  have e2 : d2 * y2 = x2 - d2 * l21 * y1 - d2 * l20 * y0 := by
    rw [h2]; field_simp; ring
  refine ⟨?_, ?_, ?_⟩
  · linear_combination e0 + l10 * e1 + l20 * e2
  · linear_combination e1 + l21 * e2
  · linear_combination e2

/-- C7: `solve_m` returns `x` unmodified and overwrites the output with the
solution on both paths.  Sparse path (3-chain, arbitrary stored factors
l10, l21, l20 and pivots d0, d1, d2 with consistent diagonal inverses):
the result's first component is exactly the input `x`, the output is
independent of the output buffer's prior contents, and the output solves
the factored system `Lᵀ D L y = x`.  Dense path: `x` is returned unmodified
and the output is exactly the tile-solve primitive's result on `x`. -/
theorem solve_m_overwrites_y_preserves_x (l10 l21 l20 d0 d1 d2 x0 x1 x2 : ℚ)
    (hd0 : d0 ≠ 0) (hd1 : d1 ≠ 0) (hd2 : d2 ≠ 0)
    (denseSolve : (ℕ → ℕ → ℚ) → (ℕ → ℚ) → ℕ → ℚ)
    (qLDd : ℕ → ℕ → ℚ) (qDid : ℕ → ℚ) (ybuf ybuf2 : ℕ → ℚ) (y : ℕ → ℚ)
    (hy : y = (solve_m (chain3Model true) denseSolve
      (packedRow0 [d0, d1, l10, d2, l21, l20])
      (packedVec [1 / d0, 1 / d1, 1 / d2])
      (packedVec [x0, x1, x2]) ybuf).2) :
    (solve_m (chain3Model true) denseSolve
        (packedRow0 [d0, d1, l10, d2, l21, l20])
        (packedVec [1 / d0, 1 / d1, 1 / d2])
        (packedVec [x0, x1, x2]) ybuf).1 = packedVec [x0, x1, x2] ∧
    (solve_m (chain3Model true) denseSolve
        (packedRow0 [d0, d1, l10, d2, l21, l20])
        (packedVec [1 / d0, 1 / d1, 1 / d2])
        (packedVec [x0, x1, x2]) ybuf).2 =
      (solve_m (chain3Model true) denseSolve
        (packedRow0 [d0, d1, l10, d2, l21, l20])
        (packedVec [1 / d0, 1 / d1, 1 / d2])
        (packedVec [x0, x1, x2]) ybuf2).2 ∧
    ((d0 + l10 * l10 * d1 + l20 * l20 * d2) * y 0 +
        (l10 * d1 + l20 * l21 * d2) * y 1 + l20 * d2 * y 2 = x0 ∧
      (l10 * d1 + l20 * l21 * d2) * y 0 + (d1 + l21 * l21 * d2) * y 1 +
        l21 * d2 * y 2 = x1 ∧
      l20 * d2 * y 0 + l21 * d2 * y 1 + d2 * y 2 = x2) ∧
    (solve_m (chain3Model false) denseSolve qLDd qDid
        (packedVec [x0, x1, x2]) ybuf).1 = packedVec [x0, x1, x2] ∧
    (solve_m (chain3Model false) denseSolve qLDd qDid
        (packedVec [x0, x1, x2]) ybuf).2 =
      denseSolve qLDd (packedVec [x0, x1, x2]) := by
  refine ⟨rfl, rfl, ?_, rfl, rfl⟩
  have H := solveMSparse_chain3_eval
    (packedRow0 [d0, d1, l10, d2, l21, l20])
    (packedVec [1 / d0, 1 / d1, 1 / d2]) (packedVec [x0, x1, x2])
  rw [packedVec_at0, packedVec_at1, packedVec_at2, packedVec_at0,
    packedVec_at1, packedVec_at2, packedRow0_at2, packedRow0_at4,
    packedRow0_at5] at H
  have hsm : y = solveMSparse (chain3Model true)
      (packedRow0 [d0, d1, l10, d2, l21, l20])
      (packedVec [1 / d0, 1 / d1, 1 / d2]) (packedVec [x0, x1, x2]) := hy
  rw [← hsm] at H
  have k0 := H.1
  have k1 := H.2.1
  have k2 := H.2.2
  rw [← k0] at k1
  rw [← k0, ← k1] at k2
  exact chain3_LTDL_solves l10 l21 l20 d0 d1 d2 x0 x1 x2 hd0 hd1 hd2
    (y 0) (y 1) (y 2) k0 k1 k2

/-- Witness for C7: identity factors (pivots 1, multipliers 0), right-hand
side (3, 4, 5). -/
theorem solve_m_overwrites_witness :
    ((1 : ℚ) ≠ 0) ∧
    (solve_m (chain3Model true) (fun _ x => x)
        (packedRow0 [1, 1, 0, 1, 0, 0]) (packedVec [1 / 1, 1 / 1, 1 / 1])
        (packedVec [3, 4, 5]) (fun _ => 0)).1 = packedVec [3, 4, 5] := by
  constructor
  · norm_num
  · exact (solve_m_overwrites_y_preserves_x 0 0 0 1 1 1 3 4 5
      (by norm_num) (by norm_num) (by norm_num) (fun _ x => x)
      (fun _ _ => 0) (fun _ => 0) (fun _ => 0) (fun _ => 1) _ rfl).1

/-- C8: for a hinge joint processed by `kinematics._level`, the axis-angle
update followed by the anchor-preserving position correction satisfies
`rot(xquat_new, jnt_pos) + xpos_new = xanchor`, where `xanchor` is the world
anchor computed before the rotation — for every pose, joint placement,
configuration and any sine/cosine evaluation. -/
theorem hinge_anchor_preserved (sinf cosf : ℚ → ℚ) (qpos qpos0 : ℕ → ℚ)
    (qadr : ℕ) (axis pos xpos : Vec3 ℚ) (xquat : Quat ℚ) :
    vadd (rot_vec_quat pos
        (jointStep sinf cosf qpos qpos0 ⟨3, qadr, axis, pos⟩ (xpos, xquat)).1.2)
      (jointStep sinf cosf qpos qpos0 ⟨3, qadr, axis, pos⟩ (xpos, xquat)).1.1 =
    (jointStep sinf cosf qpos qpos0 ⟨3, qadr, axis, pos⟩ (xpos, xquat)).2.1 := by
  simp only [jointStep, reduceIte]
  ext <;> simp [vadd, vsub]

/-- C1 (code evaluated at the failing input): `kinematics._level` has no
branch for ball joints, so for a body whose single ball joint holds the
half-turn quaternion (0,1,0,0) in its qpos segment (addresses 0..3), the
stored body orientation is the identity (parent pose composed with the fixed
offset only), even though composing with the joint's qpos quaternion — as
the spec prescribes — yields (0,1,0,0). -/
theorem kinematics_ball_ignores_qpos :
    (kinematicsBody (K := ℚ) id (fun _ => 0) (fun _ => 0)
        (fun i => if i = 1 then 1 else 0) (fun _ => 0)
        ⟨⟨0, 0, 0⟩, ⟨1, 0, 0, 0⟩, ⟨1, 0, 0, 0, 1, 0, 0, 0, 1⟩, ⟨0, 0, 0⟩,
          ⟨1, 0, 0, 0⟩, [⟨1, 0, ⟨0, 0, 1⟩, ⟨0, 0, 0⟩⟩]⟩).xquat =
      ⟨1, 0, 0, 0⟩ ∧
    mul_quat (mul_quat (⟨1, 0, 0, 0⟩ : Quat ℚ) ⟨1, 0, 0, 0⟩) ⟨0, 1, 0, 0⟩ =
      ⟨0, 1, 0, 0⟩ ∧
    (⟨1, 0, 0, 0⟩ : Quat ℚ) ≠ ⟨0, 1, 0, 0⟩ := by
  refine ⟨?_, by norm_num [mul_quat], by simp⟩
  norm_num [kinematicsBody, kinematicsRegular, jointLoop, jointStep,
    wpNormalizeQuat, qlength, qnormSq, qscale, mul_quat, matVec, vadd,
    rot_vec_quat, vscale, vdot, vcross]

/-- Chain computation is independent of the fuel once it exceeds the
level. -/
theorem chainAux_fuel_eq {n : ℕ} (t : CrbTree n)
    (hlvl : ∀ x : Fin (n + 1), x ≠ 0 → t.level (t.parent x) < t.level x) :
    ∀ (k : ℕ) (x : Fin (n + 1)), t.level x < k →
      ∀ f1 f2 : ℕ, t.level x < f1 → t.level x < f2 →
        chainAux t.parent f1 x = chainAux t.parent f2 x := by
  intro k
  induction k with
  | zero => intro x hx; omega
  | succ k ih =>
    intro x hx f1 f2 h1 h2
    obtain ⟨g1, rfl⟩ : ∃ m, f1 = m + 1 := ⟨f1 - 1, by omega⟩
    obtain ⟨g2, rfl⟩ : ∃ m, f2 = m + 1 := ⟨f2 - 1, by omega⟩
    by_cases hx0 : x = 0
    · simp [chainAux, hx0]
    · simp only [chainAux, if_neg hx0]
      congr 1
      have hp := hlvl x hx0
      exact ih (t.parent x) (by omega) g1 g2 (by omega) (by omega)

/-- The root's chain is just the root. -/
theorem chainN_zero {n : ℕ} (t : CrbTree n) : chainN t 0 = [0] := by
  simp [chainN, chainAux]

/-- Unfolding the chain one step away from the root. -/
theorem chainN_cons {n : ℕ} (t : CrbTree n)
    (hlvl : ∀ x : Fin (n + 1), x ≠ 0 → t.level (t.parent x) < t.level x)
    (hbound : ∀ x : Fin (n + 1), t.level x < n + 1)
    (x : Fin (n + 1)) (hx : x ≠ 0) :
    chainN t x = x :: chainN t (t.parent x) := by
  have hp := hlvl x hx
  have hb := hbound x
  have e : chainN t x =
      if x = 0 then [x] else x :: chainAux t.parent n (t.parent x) := rfl
  rw [e, if_neg hx]
  congr 1
  exact chainAux_fuel_eq t hlvl (t.level (t.parent x) + 1) (t.parent x)
    (by omega) n (n + 1) (by omega) (by omega)

/-- Every body is on its own chain. -/
theorem mem_chainN_self {n : ℕ} (t : CrbTree n) (x : Fin (n + 1)) :
    x ∈ chainN t x := by
  have e : chainN t x =
      if x = 0 then [x] else x :: chainAux t.parent n (t.parent x) := rfl
  rw [e]
  split
  · exact List.mem_singleton.mpr rfl
  · exact List.mem_cons_self _ _

/-- A chain member is the body itself or lies at a strictly smaller
level. -/
theorem chain_mem_level {n : ℕ} (t : CrbTree n)
    (hlvl : ∀ x : Fin (n + 1), x ≠ 0 → t.level (t.parent x) < t.level x)
    (hbound : ∀ x : Fin (n + 1), t.level x < n + 1) :
    ∀ (k : ℕ) (x : Fin (n + 1)), t.level x < k →
      ∀ z, z ∈ chainN t x → z = x ∨ t.level z < t.level x := by
  intro k
  induction k with
  | zero => intro x hx; omega
  | succ k ih =>
    intro x hx z hz
    by_cases hx0 : x = 0
    · subst hx0
      rw [chainN_zero] at hz
      exact Or.inl (List.mem_singleton.mp hz)
    · rw [chainN_cons t hlvl hbound x hx0] at hz
      rcases List.mem_cons.mp hz with h | h
      · exact Or.inl h
      · right
        have hp := hlvl x hx0
        rcases ih (t.parent x) (by omega) z h with h' | h'
        · rw [h']; omega
        · omega

/-- Mutual chain membership forces equality. -/
theorem chain_antisymm {n : ℕ} (t : CrbTree n)
    (hlvl : ∀ x : Fin (n + 1), x ≠ 0 → t.level (t.parent x) < t.level x)
    (hbound : ∀ x : Fin (n + 1), t.level x < n + 1)
    (x y : Fin (n + 1)) (hxy : y ∈ chainN t x) (hyx : x ∈ chainN t y) :
    x = y := by
  rcases chain_mem_level t hlvl hbound (t.level x + 1) x (by omega) y hxy
    with h | h
  · exact h.symm
  rcases chain_mem_level t hlvl hbound (t.level y + 1) y (by omega) x hyx
    with h' | h'
  · exact h'
  · omega

/-- Ancestry is transitive: the chain of a chain member is contained in the
chain. -/
theorem chain_trans {n : ℕ} (t : CrbTree n)
    (hlvl : ∀ x : Fin (n + 1), x ≠ 0 → t.level (t.parent x) < t.level x)
    (hbound : ∀ x : Fin (n + 1), t.level x < n + 1) :
    ∀ (k : ℕ) (x : Fin (n + 1)), t.level x < k →
      ∀ b w, b ∈ chainN t x → w ∈ chainN t b → w ∈ chainN t x := by
  intro k
  induction k with
  | zero => intro x hx; omega
  | succ k ih =>
    intro x hx b w hb hw
    by_cases hx0 : x = 0
    · subst hx0
      rw [chainN_zero] at hb ⊢
      have hb0 : b = 0 := List.mem_singleton.mp hb
      subst hb0
      rwa [chainN_zero] at hw
    · rw [chainN_cons t hlvl hbound x hx0] at hb
      rcases List.mem_cons.mp hb with h | h
      · subst h
        exact hw
      · rw [chainN_cons t hlvl hbound x hx0]
        have hp := hlvl x hx0
        exact List.mem_cons_of_mem _ (ih (t.parent x) (by omega) b w h hw)

/-- Two members of one chain are comparable by ancestry. -/
theorem chain_total {n : ℕ} (t : CrbTree n)
    (hlvl : ∀ x : Fin (n + 1), x ≠ 0 → t.level (t.parent x) < t.level x)
    (hbound : ∀ x : Fin (n + 1), t.level x < n + 1) :
    ∀ (k : ℕ) (x : Fin (n + 1)), t.level x < k →
      ∀ z b, z ∈ chainN t x → b ∈ chainN t x →
        b ∈ chainN t z ∨ z ∈ chainN t b := by
  intro k
  induction k with
  | zero => intro x hx; omega
  | succ k ih =>
    intro x hx z b hz hb
    by_cases hx0 : x = 0
    · subst hx0
      rw [chainN_zero] at hz hb
      have hz0 : z = 0 := List.mem_singleton.mp hz
      have hb0 : b = 0 := List.mem_singleton.mp hb
      subst hz0
      subst hb0
      exact Or.inl (mem_chainN_self t 0)
    · rw [chainN_cons t hlvl hbound x hx0] at hz hb
      rcases List.mem_cons.mp hz with h | h
      · subst h
        refine Or.inl ?_
        rw [chainN_cons t hlvl hbound _ hx0]
        exact hb
      · rcases List.mem_cons.mp hb with h' | h'
        · subst h'
          refine Or.inr ?_
          rw [chainN_cons t hlvl hbound _ hx0]
          exact hz
        · have hp := hlvl x hx0
          exact ih (t.parent x) (by omega) z b h h'

/-- The parent is on the chain of every non-root body. -/
theorem parent_mem_chainN {n : ℕ} (t : CrbTree n)
    (hlvl : ∀ x : Fin (n + 1), x ≠ 0 → t.level (t.parent x) < t.level x)
    (hbound : ∀ x : Fin (n + 1), t.level x < n + 1)
    (x : Fin (n + 1)) (hx : x ≠ 0) : t.parent x ∈ chainN t x := by
  rw [chainN_cons t hlvl hbound x hx]
  exact List.mem_cons_of_mem _ (mem_chainN_self t _)

/-- Main loop invariant of the crb accumulation: processing the remaining
bodies `todo` (no duplicates; closed under parents; no body preceding one of
its proper ancestors — i.e. descendants come first) turns any state
satisfying the partial-contribution invariant into the final state, where
every non-root body holds the contribution sum over an empty unprocessed
set and the root is untouched. -/
theorem crbRun_loop {n : ℕ} {V : Type} [AddCommMonoid V] (t : CrbTree n)
    (hroot : t.parent 0 = 0)
    (hlvl : ∀ x : Fin (n + 1), x ≠ 0 → t.level (t.parent x) < t.level x)
    (hbound : ∀ x : Fin (n + 1), t.level x < n + 1)
    (cinert : Fin (n + 1) → V) :
    ∀ (todo : List (Fin (n + 1))) (f : Fin (n + 1) → V),
      todo.Nodup →
      (∀ c ∈ todo, c ≠ 0 → t.parent c ∈ todo) →
      List.Pairwise (fun a c => ¬(a ∈ chainN t c ∧ a ≠ c)) todo →
      f 0 = cinert 0 →
      (∀ y, y ≠ 0 → f y = ∑ x in contribSet t todo y, cinert x) →
      (todo.foldl (crbStep t) f) 0 = cinert 0 ∧
      ∀ y, y ≠ 0 →
        (todo.foldl (crbStep t) f) y = ∑ x in contribSet t [] y, cinert x
    := by
  intro todo
  induction todo with
  | nil =>
    intro f _ _ _ hf0 hinv
    exact ⟨hf0, hinv⟩
  | cons b rest ih =>
    intro f hnodup huc hpair hf0 hinv
    have hnodup' : rest.Nodup := (List.nodup_cons.mp hnodup).2
    have hbnot : b ∉ rest := (List.nodup_cons.mp hnodup).1
    have hmin : ∀ c ∈ rest, ¬(b ∈ chainN t c ∧ b ≠ c) :=
      (List.pairwise_cons.mp hpair).1
    have hpair' : List.Pairwise (fun a c => ¬(a ∈ chainN t c ∧ a ≠ c)) rest :=
      (List.pairwise_cons.mp hpair).2
    -- the remaining list stays closed under parents
    have huc' : ∀ c ∈ rest, c ≠ 0 → t.parent c ∈ rest := by
      intro c hc hc0
      rcases List.mem_cons.mp
        (huc c (List.mem_cons_of_mem _ hc) hc0) with h | h
      · exfalso
        have hbc : b ∈ chainN t c := by
          rw [← h]
          exact parent_mem_chainN t hlvl hbound c hc0
        have hbne : b ≠ c := by
          intro hbceq
          have hl := hlvl c hc0
          rw [h, hbceq] at hl
          omega
        exact hmin c hc ⟨hbc, hbne⟩
      · exact h
    rw [List.foldl_cons]
    by_cases hpb0 : t.parent b = 0
    · -- the parent is the world root: the thread returns without writing
      have hstep : crbStep t f b = f := by
        simp only [crbStep, if_pos hpb0]
      rw [hstep]
      refine ih f hnodup' huc' hpair' hf0 ?_
      intro y hy
      rw [hinv y hy]
      congr 1
      ext x
      simp only [contribSet, Finset.mem_filter, Finset.mem_univ, true_and]
      constructor
      · rintro ⟨h1, h2⟩
        exact ⟨h1, fun z hz1 hz2 hz3 hzr =>
          h2 z hz1 hz2 hz3 (List.mem_cons_of_mem _ hzr)⟩
      · rintro ⟨h1, h2⟩
        refine ⟨h1, fun z hz1 hz2 hz3 hzmem => ?_⟩
        rcases List.mem_cons.mp hzmem with rfl | hzr
        · -- z = b: its proper ancestors are only the root, but y ≠ 0
          by_cases hb0 : z = 0
          · rw [hb0, chainN_zero] at hz2
            exact hy (List.mem_singleton.mp hz2)
          · rw [chainN_cons t hlvl hbound z hb0, hpb0, chainN_zero] at hz2
            rcases List.mem_cons.mp hz2 with h | h
            · exact hz3 h.symm
            · exact hy (List.mem_singleton.mp h)
        · exact h2 z hz1 hz2 hz3 hzr
    · -- the parent is a real body: the thread adds f b into it
      have hb0 : b ≠ 0 := by
        intro h
        rw [h, hroot] at hpb0
        exact hpb0 rfl
      have hpbchain : t.parent b ∈ chainN t b :=
        parent_mem_chainN t hlvl hbound b hb0
      have hpbne : t.parent b ≠ b := by
        intro h
        have := hlvl b hb0
        rw [h] at this
        omega
      have hpbmem : t.parent b ∈ rest := by
        rcases List.mem_cons.mp (huc b (List.mem_cons_self _ _) hb0)
          with h | h
        · exact absurd h hpbne
        · exact h
      have hstep : crbStep t f b =
          Function.update f (t.parent b) (f (t.parent b) + f b) := by
        simp only [crbStep, if_neg hpb0]
      -- the head's entry already holds its full subtree sum
      have hfb : f b =
          ∑ x in Finset.univ.filter (fun x => b ∈ chainN t x), cinert x := by
        rw [hinv b hb0]
        congr 1
        ext x
        simp only [contribSet, Finset.mem_filter, Finset.mem_univ, true_and]
        constructor
        · rintro ⟨h1, _⟩
          exact h1
        · intro h1
          refine ⟨h1, fun z hz1 hz2 hz3 hzmem => ?_⟩
          rcases List.mem_cons.mp hzmem with rfl | hzr
          · exact hz3 rfl
          · exact hmin z hzr ⟨hz2, fun h => hz3 h.symm⟩
      -- the subtree of b is disjoint from the still-blocked contributions
      have hdisj : Disjoint (contribSet t (b :: rest) (t.parent b))
          (Finset.univ.filter (fun x => b ∈ chainN t x)) := by
        rw [Finset.disjoint_left]
        intro x hx1 hx2
        simp only [contribSet, Finset.mem_filter, Finset.mem_univ,
          true_and] at hx1 hx2
        exact hx1.2 b hx2 hpbchain (Ne.symm hpbne) (List.mem_cons_self _ _)
      -- processing b unblocks exactly the subtree of b at the parent
      have hunion : contribSet t rest (t.parent b) =
          contribSet t (b :: rest) (t.parent b) ∪
            Finset.univ.filter (fun x => b ∈ chainN t x) := by
        ext x
        simp only [contribSet, Finset.mem_filter, Finset.mem_union,
          Finset.mem_univ, true_and]
        constructor
        · rintro ⟨h1, h2⟩
          by_cases hbx : b ∈ chainN t x
          · exact Or.inr hbx
          · refine Or.inl ⟨h1, fun z hz1 hz2 hz3 hzmem => ?_⟩
            rcases List.mem_cons.mp hzmem with rfl | hzr
            · exact hbx hz1
            · exact h2 z hz1 hz2 hz3 hzr
        · rintro (⟨h1, h2⟩ | hbx)
          · exact ⟨h1, fun z hz1 hz2 hz3 hzr =>
              h2 z hz1 hz2 hz3 (List.mem_cons_of_mem _ hzr)⟩
          · refine ⟨chain_trans t hlvl hbound (t.level x + 1) x (by omega)
              b (t.parent b) hbx hpbchain,
              fun z hz1 hz2 hz3 hzr => ?_⟩
            rcases chain_total t hlvl hbound (t.level x + 1) x (by omega)
              z b hz1 hbx with hbz | hzb
            · by_cases hzb' : z = b
              · exact hbnot (hzb' ▸ hzr)
              · exact hmin z hzr ⟨hbz, fun h => hzb' h.symm⟩
            · rw [chainN_cons t hlvl hbound b hb0] at hzb
              rcases List.mem_cons.mp hzb with h | h
              · exact hbnot (h ▸ hzr)
              · exact hz3 (chain_antisymm t hlvl hbound z (t.parent b)
                  hz2 h)
      rw [hstep]
      refine ih _ hnodup' huc' hpair' ?_ ?_
      · rw [Function.update_noteq (Ne.symm hpb0), hf0]
      · intro y hy
        by_cases hypb : y = t.parent b
        · subst hypb
          rw [Function.update_same, hinv _ hy, hfb, hunion,
            Finset.sum_union hdisj]
        · rw [Function.update_noteq hypb, hinv y hy]
          congr 1
          ext x
          simp only [contribSet, Finset.mem_filter, Finset.mem_univ,
            true_and]
          constructor
          · rintro ⟨h1, h2⟩
            exact ⟨h1, fun z hz1 hz2 hz3 hzr =>
              h2 z hz1 hz2 hz3 (List.mem_cons_of_mem _ hzr)⟩
          · rintro ⟨h1, h2⟩
            refine ⟨h1, fun z hz1 hz2 hz3 hzmem => ?_⟩
            rcases List.mem_cons.mp hzmem with rfl | hzr
            · rw [chainN_cons t hlvl hbound z hb0] at hz2
              rcases List.mem_cons.mp hz2 with h | h
              · exact hz3 h.symm
              · have hpbx : t.parent z ∈ chainN t x :=
                  chain_trans t hlvl hbound (t.level x + 1) x (by omega)
                    z (t.parent z) hz1
                    (parent_mem_chainN t hlvl hbound z hb0)
                exact h2 (t.parent z) hpbx h (fun hh => hypb hh.symm)
                  hpbmem
            · exact h2 z hz1 hz2 hz3 hzr

/-- With nothing left unprocessed, the contribution set is the whole
subtree. -/
theorem contribSet_nil {n : ℕ} (t : CrbTree n) (y : Fin (n + 1)) :
    contribSet t [] y = Finset.univ.filter (fun x => y ∈ chainN t x) := by
  ext x
  simp [contribSet]

/-- With every body still unprocessed, a body's only contribution is its
own. -/
theorem contribSet_full {n : ℕ} (t : CrbTree n)
    (hlvl : ∀ x : Fin (n + 1), x ≠ 0 → t.level (t.parent x) < t.level x)
    (hbound : ∀ x : Fin (n + 1), t.level x < n + 1)
    (order : List (Fin (n + 1))) (hall : ∀ x, x ∈ order)
    (y : Fin (n + 1)) : contribSet t order y = {y} := by
  ext x
  simp only [contribSet, Finset.mem_filter, Finset.mem_univ, true_and,
    Finset.mem_singleton]
  constructor
  · rintro ⟨h1, h2⟩
    by_contra hxy
    exact h2 x (mem_chainN_self t x) h1 hxy (hall x)
  · rintro rfl
    exact ⟨mem_chainN_self t x, fun z hz1 hz2 hz3 =>
      absurd (chain_antisymm t hlvl hbound z x hz2 hz1) hz3⟩

/-- C10: the crb accumulation never writes into the world root: after `crb`
runs, body 0's entry equals its own cinert, while every other body's entry
equals the sum of cinert over its entire subtree — for every tree
satisfying the Model level invariants and every traversal that processes
each body exactly once with descendants before ancestors (as the
deepest-to-shallowest level launches do). -/
theorem crb_world_root_untouched {n : ℕ} {V : Type} [AddCommMonoid V]
    (t : CrbTree n) (hroot : t.parent 0 = 0)
    (hlvl : ∀ x : Fin (n + 1), x ≠ 0 → t.level (t.parent x) < t.level x)
    (hbound : ∀ x : Fin (n + 1), t.level x < n + 1)
    (cinert : Fin (n + 1) → V) (order : List (Fin (n + 1)))
    (hnodup : order.Nodup) (hall : ∀ x, x ∈ order)
    (hpair : List.Pairwise (fun a c => ¬(a ∈ chainN t c ∧ a ≠ c)) order) :
    crbRun t cinert order 0 = cinert 0 ∧
    ∀ b, b ≠ 0 → crbRun t cinert order b = subtreeSum t cinert b := by
  have H := crbRun_loop t hroot hlvl hbound cinert order cinert hnodup
    (fun c _ hc0 => hall _) hpair rfl
    (fun y hy => by
      rw [contribSet_full t hlvl hbound order hall y, Finset.sum_singleton])
  refine ⟨H.1, fun b hb => ?_⟩
  have h2 := H.2 b hb
  rw [contribSet_nil] at h2
  exact h2

/-- Witness for C10: a 4-body tree (bodies 2 and 3 children of body 1,
body 1 a child of the root) with integer composite inertias, processed
deepest level first; body 1 accumulates its whole subtree, the root keeps
its own value. -/
theorem crb_world_root_untouched_witness :
    crbRun (⟨![0, 0, 1, 1], ![0, 1, 2, 2]⟩ : CrbTree 3)
      (![1, 10, 100, 1000] : Fin 4 → ℤ) [2, 3, 1, 0] 0 =
      (![1, 10, 100, 1000] : Fin 4 → ℤ) 0 ∧
    crbRun (⟨![0, 0, 1, 1], ![0, 1, 2, 2]⟩ : CrbTree 3)
      (![1, 10, 100, 1000] : Fin 4 → ℤ) [2, 3, 1, 0] 1 =
      subtreeSum (⟨![0, 0, 1, 1], ![0, 1, 2, 2]⟩ : CrbTree 3)
        (![1, 10, 100, 1000] : Fin 4 → ℤ) 1 := by
  have H := crb_world_root_untouched
    (⟨![0, 0, 1, 1], ![0, 1, 2, 2]⟩ : CrbTree 3) (by decide) (by decide)
    (by decide) (![1, 10, 100, 1000] : Fin 4 → ℤ) [2, 3, 1, 0] (by decide)
    (by decide) (by decide)
  exact ⟨H.1, H.2 1 (by decide)⟩

end MjxWarp
